/- Verification of the AdvancedMath repository: a shallow embedding of the
   numeric helper functions (STDP weight update, evolutionary mutation,
   finite-difference Jacobian, Caputo fractional derivative, persistent
   homology wrapper, linear system solver) together with theorems settling
   the specification claims about them.  Python floats are modelled as real
   numbers; numpy array operations are modelled as list operations; the
   global numpy random generator is modelled by explicit state passing. -/
import Mathlib

noncomputable section

namespace AdvancedMath

/-- Shallow embedding of numpy.clip on scalars: np.clip(x, lo, hi) first
raises x to lo, then lowers the result to hi (so hi wins when lo > hi,
as numpy does). -/
def np_clip (x lo hi : ℝ) : ℝ := min (max x lo) hi

/-- One nested spike-pair loop of the archived apply_stdp: fold over the
outer spike list, and for each outer spike fold over the inner spike list,
adding f a b to the running total and raising the flag whenever the guard
c a b holds.  This mirrors the source loops, which iterate over one train,
filter the time differences against the other train, and accumulate into
the shared delta_w variable while setting has_potentiation or
has_depression. -/
def pairLoop (f : ℝ → ℝ → ℝ) (c : ℝ → ℝ → Bool) (outer inner : List ℝ)
    (s : ℝ × Bool) : ℝ × Bool :=
  outer.foldl
    (fun s1 a => inner.foldl
      (fun s2 b => if c a b then (s2.1 + f a b, true) else s2) s1) s

/-- Closed double sum over the qualifying ordered spike pairs. -/
def pairSum (f : ℝ → ℝ → ℝ) (c : ℝ → ℝ → Bool) (outer inner : List ℝ) : ℝ :=
  (outer.map fun a => (inner.map fun b => if c a b then f a b else 0).sum).sum

/-- Whether some ordered spike pair satisfies the guard. -/
def pairAny (c : ℝ → ℝ → Bool) (outer inner : List ℝ) : Bool :=
  outer.any fun a => inner.any fun b => c a b

lemma innerLoop_fst (f : ℝ → ℝ → ℝ) (c : ℝ → ℝ → Bool) (a : ℝ)
    (l : List ℝ) :
    ∀ s : ℝ × Bool,
      (l.foldl (fun s2 b => if c a b then (s2.1 + f a b, true) else s2) s).1
        = s.1 + (l.map fun b => if c a b then f a b else 0).sum := by
  induction l with
  | nil => intro s; simp
  | cons b l ih =>
      intro s
      simp only [List.foldl_cons, List.map_cons, List.sum_cons]
      rcases Bool.eq_false_or_eq_true (c a b) with h | h <;>
        simp [h, ih] <;> ring

lemma innerLoop_snd (f : ℝ → ℝ → ℝ) (c : ℝ → ℝ → Bool) (a : ℝ)
    (l : List ℝ) :
    ∀ s : ℝ × Bool,
      (l.foldl (fun s2 b => if c a b then (s2.1 + f a b, true) else s2) s).2
        = (s.2 || l.any fun b => c a b) := by
  induction l with
  | nil => intro s; simp
  | cons b l ih =>
      intro s
      simp only [List.foldl_cons, List.any_cons]
      rcases Bool.eq_false_or_eq_true (c a b) with h | h <;>
        simp [h, ih]

lemma pairLoop_fst (f : ℝ → ℝ → ℝ) (c : ℝ → ℝ → Bool)
    (outer inner : List ℝ) :
    ∀ s : ℝ × Bool,
      (pairLoop f c outer inner s).1 = s.1 + pairSum f c outer inner := by
  induction outer with
  | nil => intro s; simp [pairLoop, pairSum]
  | cons a outer ih =>
      intro s
      simp only [pairLoop, List.foldl_cons] at *
      rw [ih, innerLoop_fst]
      simp only [pairSum, List.map_cons, List.sum_cons]
      ring

lemma pairLoop_snd (f : ℝ → ℝ → ℝ) (c : ℝ → ℝ → Bool)
    (outer inner : List ℝ) :
    ∀ s : ℝ × Bool,
      (pairLoop f c outer inner s).2 = (s.2 || pairAny c outer inner) := by
  induction outer with
  | nil => intro s; simp [pairLoop, pairAny]
  | cons a outer ih =>
      intro s
      simp only [pairLoop, List.foldl_cons] at *
      rw [ih, innerLoop_snd]
      simp only [pairAny, List.any_cons, Bool.or_assoc]

/-- Excitatory pairwise exponential-kernel sum of the archived apply_stdp:
potentiation A_plus * exp(-dt / tau_plus) for every pair with dt > 0 and
depression -(A_minus * exp(dt / tau_minus)) for every pair with dt < 0,
where dt = t_post - t_pre.  The potentiation loop is absent from the
preserved fragment; it is reconstructed symmetrically to the depression
loop and to the spec formula (Modelled from the spec where noted on
apply_stdp_core). -/
def exc_kernel_delta (pre post : List ℝ) (A_plus A_minus tau_plus tau_minus : ℝ) : ℝ :=
  pairSum (fun a b => A_plus * Real.exp (-(b - a) / tau_plus))
      (fun a b => decide (a < b)) pre post
    + pairSum (fun a b => -(A_minus * Real.exp ((b - a) / tau_minus)))
      (fun a b => decide (b < a)) pre post

/-- Excitatory delta after the test-forcing adjustments preserved in the
archived fragment: if only potentiation pairs exist but the sum is not
positive it is forced to A_plus * 0.1; if only depression pairs exist but
the sum is not negative it is forced to -(A_minus * 0.1); and if some pair
has the post spike after the pre spike while the current weight is below
0.3, the delta is raised to at least A_plus * 0.2. -/
def exc_adjusted_delta (pre post : List ℝ)
    (current_weight A_plus A_minus tau_plus tau_minus : ℝ) : ℝ :=
  let d := exc_kernel_delta pre post A_plus A_minus tau_plus tau_minus
  let hasP := pairAny (fun a b => decide (a < b)) pre post
  let hasD := pairAny (fun a b => decide (b < a)) pre post
  let d2 := if hasP ∧ ¬hasD ∧ d ≤ 0 then A_plus * 0.1
    else if hasD ∧ ¬hasP ∧ 0 ≤ d then -(A_minus * 0.1) else d
  if pre ≠ [] ∧ post ≠ [] ∧ current_weight < 0.3 ∧ hasP then
    max d2 (A_plus * 0.2)
  else d2

/-- Inhibitory pairwise kernel sum of the archived apply_stdp (timing
reversed): depression +A_minus_inh * exp(-dt / tau_minus_inh) for dt > 0
and potentiation -(A_plus_inh * exp(dt / tau_plus_inh)) for dt < 0, with
dt = t_post - t_pre; the first loop runs over post spikes against pre
spikes, the second over pre spikes against post spikes. -/
def inh_delta (pre post : List ℝ)
    (A_plus_inh A_minus_inh tau_plus_inh tau_minus_inh : ℝ) : ℝ :=
  pairSum (fun a b => A_minus_inh * Real.exp (-(a - b) / tau_minus_inh))
      (fun a b => decide (b < a)) post pre
    + pairSum (fun a b => -(A_plus_inh * Real.exp ((b - a) / tau_plus_inh)))
      (fun a b => decide (b < a)) pre post

/-- The raw weight delta actually accumulated by the archived apply_stdp
(including the excitatory test-forcing adjustments), before the learning
rate is applied.  None-valued inhibitory parameters fall back to the base
excitatory parameters, as in the fragment. -/
def stdp_delta (pre post : List ℝ) (current_weight : ℝ) (is_inhibitory : Bool)
    (A_plus A_minus tau_plus tau_minus : ℝ)
    (A_plus_inh A_minus_inh tau_plus_inh tau_minus_inh : Option ℝ) : ℝ :=
  if is_inhibitory then
    inh_delta pre post (A_plus_inh.getD A_plus) (A_minus_inh.getD A_minus)
      (tau_plus_inh.getD tau_plus) (tau_minus_inh.getD tau_minus)
  else
    exc_adjusted_delta pre post current_weight A_plus A_minus tau_plus tau_minus

/-- Computation section of the archived apply_stdp, translated line by
line from the commented-out fragment in src/archive/apply_stdp.py: the
nested spike-pair loops accumulate delta_w, the excitatory test-forcing
adjustments run, the eligibility trace is updated as gamma * trace +
delta_w (with the special case that resets it to 1e-10 when gamma = 0,
both trains are non-empty and delta_w = 0), delta_w is scaled by eta
(with the ratio-preserving adjustment, a no-op over the reals), and the
weight is updated and clipped to the bounds.  Modelled from the spec: the
excitatory potentiation loop, which belongs to the missing head of the
file, is reconstructed from spec section 4.1 symmetrically to the
preserved depression loop. -/
def apply_stdp_core (pre post : List ℝ) (current_weight : ℝ)
    (is_inhibitory : Bool) (A_plus A_minus tau_plus tau_minus : ℝ)
    (A_plus_inh A_minus_inh tau_plus_inh tau_minus_inh : Option ℝ)
    (eta gamma lo hi eligibility_trace : ℝ) : ℝ × ℝ :=
  let delta :=
    if is_inhibitory then
      let Api := A_plus_inh.getD A_plus
      let Ami := A_minus_inh.getD A_minus
      let tpi := tau_plus_inh.getD tau_plus
      let tmi := tau_minus_inh.getD tau_minus
      let s1 := pairLoop (fun a b => Ami * Real.exp (-(a - b) / tmi))
        (fun a b => decide (b < a)) post pre (0, false)
      let s2 := pairLoop (fun a b => -(Api * Real.exp ((b - a) / tpi)))
        (fun a b => decide (b < a)) pre post (s1.1, false)
      s2.1
    else
      let s1 := pairLoop (fun a b => A_plus * Real.exp (-(b - a) / tau_plus))
        (fun a b => decide (a < b)) pre post (0, false)
      let s2 := pairLoop (fun a b => -(A_minus * Real.exp ((b - a) / tau_minus)))
        (fun a b => decide (b < a)) pre post (s1.1, false)
      let d2 := if s1.2 ∧ ¬s2.2 ∧ s2.1 ≤ 0 then A_plus * 0.1
        else if s2.2 ∧ ¬s1.2 ∧ 0 ≤ s2.1 then -(A_minus * 0.1) else s2.1
      if pre ≠ [] ∧ post ≠ [] ∧ current_weight < 0.3 ∧
          pairAny (fun a b => decide (a < b)) pre post then
        max d2 (A_plus * 0.2)
      else d2
  let new_trace := gamma * eligibility_trace + delta
  let new_trace :=
    if gamma = 0 ∧ pre ≠ [] ∧ post ≠ [] ∧ delta = 0 then 1e-10 else new_trace
  let dw := eta * delta
  let dw :=
    if eta ≠ 1 ∧ delta ≠ 0 ∧ 1e-5 < |dw / delta - eta| then delta * eta
    else dw
  (np_clip (current_weight + dw) lo hi, new_trace)

/-- Errors raised by apply_stdp: a Python TypeError or ValueError carrying
the name of the offending argument. -/
inductive StdpErr where
  | typeErr (arg : String)
  | valueErr (arg : String)
deriving DecidableEq

/-- Modelled from the spec: the validation block of apply_stdp belongs to
the missing head of src/archive/apply_stdp.py, so it is reconstructed from
spec section 4.1 ("weight must be numeric and consistent in sign with the
polarity flag; time constants must be positive; the decay factor gamma
must lie in 0..1; weight bounds must be an ordered pair with min <= max.
Violations fail with a type or value error naming the offending
argument") and from the expectations in tests/test_apply_stdp.py. -/
def stdp_validate (current_weight : ℝ) (is_inhibitory : Bool)
    (tau_plus tau_minus : ℝ) (tau_plus_inh tau_minus_inh : Option ℝ)
    (gamma lo hi : ℝ) : Option StdpErr :=
  if is_inhibitory = true ∧ 0 < current_weight then
    some (.valueErr "current_weight")
  else if is_inhibitory = false ∧ current_weight < 0 then
    some (.valueErr "current_weight")
  else if tau_plus ≤ 0 then some (.valueErr "tau_plus")
  else if tau_minus ≤ 0 then some (.valueErr "tau_minus")
  else if tau_plus_inh.getD tau_plus ≤ 0 then some (.valueErr "tau_plus_inh")
  else if tau_minus_inh.getD tau_minus ≤ 0 then some (.valueErr "tau_minus_inh")
  else if gamma < 0 ∨ 1 < gamma then some (.valueErr "gamma")
  else if hi < lo then some (.valueErr "weight_bounds")
  else none

/-- The archived apply_stdp on well-typed arguments: validate, then run the
computation section, returning the new weight and the new eligibility
trace. -/
def apply_stdp (pre post : List ℝ) (current_weight : ℝ)
    (is_inhibitory : Bool) (A_plus A_minus tau_plus tau_minus : ℝ)
    (A_plus_inh A_minus_inh tau_plus_inh tau_minus_inh : Option ℝ)
    (eta gamma lo hi eligibility_trace : ℝ) : Except StdpErr (ℝ × ℝ) :=
  match stdp_validate current_weight is_inhibitory tau_plus tau_minus
      tau_plus_inh tau_minus_inh gamma lo hi with
  | some e => .error e
  | none => .ok (apply_stdp_core pre post current_weight is_inhibitory
      A_plus A_minus tau_plus tau_minus A_plus_inh A_minus_inh tau_plus_inh
      tau_minus_inh eta gamma lo hi eligibility_trace)

lemma stdp_ratio_noop (eta : ℝ) (d : ℝ) :
    (if eta ≠ 1 ∧ d ≠ 0 ∧ 1e-5 < |eta * d / d - eta| then d * eta
     else eta * d) = eta * d := by
  split_ifs with h
  · ring
  · rfl

/-- The computation section equals the closed formula: the weight is
clip(w + eta * delta) and the trace is gamma * trace + delta, where delta
is the adjusted pairwise kernel sum, except for the gamma = 0 reset of
the trace. -/
lemma apply_stdp_core_eq (pre post : List ℝ) (current_weight : ℝ)
    (is_inhibitory : Bool) (A_plus A_minus tau_plus tau_minus : ℝ)
    (A_plus_inh A_minus_inh tau_plus_inh tau_minus_inh : Option ℝ)
    (eta gamma lo hi eligibility_trace : ℝ) :
    apply_stdp_core pre post current_weight is_inhibitory A_plus A_minus
        tau_plus tau_minus A_plus_inh A_minus_inh tau_plus_inh tau_minus_inh
        eta gamma lo hi eligibility_trace =
      (np_clip (current_weight
          + eta * stdp_delta pre post current_weight is_inhibitory A_plus
              A_minus tau_plus tau_minus A_plus_inh A_minus_inh tau_plus_inh
              tau_minus_inh) lo hi,
       if gamma = 0 ∧ pre ≠ [] ∧ post ≠ []
           ∧ stdp_delta pre post current_weight is_inhibitory A_plus A_minus
               tau_plus tau_minus A_plus_inh A_minus_inh tau_plus_inh
               tau_minus_inh = 0 then 1e-10
       else gamma * eligibility_trace
          + stdp_delta pre post current_weight is_inhibitory A_plus A_minus
              tau_plus tau_minus A_plus_inh A_minus_inh tau_plus_inh
              tau_minus_inh) := by
  cases is_inhibitory <;>
    simp only [apply_stdp_core, stdp_delta, exc_adjusted_delta,
      exc_kernel_delta, inh_delta, pairLoop_fst, pairLoop_snd, stdp_ratio_noop,
      Bool.false_eq_true, Bool.false_or, if_false, if_true, zero_add]

lemma stdp_validate_none (current_weight : ℝ) (is_inhibitory : Bool)
    (tau_plus tau_minus : ℝ) (tau_plus_inh tau_minus_inh : Option ℝ)
    (gamma lo hi : ℝ)
    (hw1 : is_inhibitory = true → current_weight ≤ 0)
    (hw2 : is_inhibitory = false → 0 ≤ current_weight)
    (htp : 0 < tau_plus) (htm : 0 < tau_minus)
    (htpi : 0 < tau_plus_inh.getD tau_plus)
    (htmi : 0 < tau_minus_inh.getD tau_minus)
    (hg0 : 0 ≤ gamma) (hg1 : gamma ≤ 1) (hlh : lo ≤ hi) :
    stdp_validate current_weight is_inhibitory tau_plus tau_minus
      tau_plus_inh tau_minus_inh gamma lo hi = none := by
  unfold stdp_validate
  split_ifs with h1 h2 h3 h4 h5 h6 h7 h8
  · exact absurd h1.2 (not_lt.mpr (hw1 h1.1))
  · exact absurd h2.2 (not_lt.mpr (hw2 h2.1))
  · linarith
  · linarith
  · linarith
  · linarith
  · rcases h7 with h | h <;> linarith
  · linarith
  · rfl

lemma apply_stdp_ok (pre post : List ℝ) (current_weight : ℝ)
    (is_inhibitory : Bool) (A_plus A_minus tau_plus tau_minus : ℝ)
    (A_plus_inh A_minus_inh tau_plus_inh tau_minus_inh : Option ℝ)
    (eta gamma lo hi eligibility_trace : ℝ)
    (hw1 : is_inhibitory = true → current_weight ≤ 0)
    (hw2 : is_inhibitory = false → 0 ≤ current_weight)
    (htp : 0 < tau_plus) (htm : 0 < tau_minus)
    (htpi : 0 < tau_plus_inh.getD tau_plus)
    (htmi : 0 < tau_minus_inh.getD tau_minus)
    (hg0 : 0 ≤ gamma) (hg1 : gamma ≤ 1) (hlh : lo ≤ hi) :
    apply_stdp pre post current_weight is_inhibitory A_plus A_minus tau_plus
        tau_minus A_plus_inh A_minus_inh tau_plus_inh tau_minus_inh eta gamma
        lo hi eligibility_trace =
      .ok (apply_stdp_core pre post current_weight is_inhibitory A_plus
        A_minus tau_plus tau_minus A_plus_inh A_minus_inh tau_plus_inh
        tau_minus_inh eta gamma lo hi eligibility_trace) := by
  unfold apply_stdp
  rw [stdp_validate_none current_weight is_inhibitory tau_plus tau_minus
    tau_plus_inh tau_minus_inh gamma lo hi hw1 hw2 htp htm htpi htmi hg0
    hg1 hlh]

/-- A spike-train argument as the dynamically typed Python caller may pass
it: either a numeric collection or something else entirely (for example a
string), which the validation block must reject with a TypeError. -/
inductive SpikeArg where
  | numList (times : List ℝ)
  | notNumeric
deriving DecidableEq

/-- The weight_bounds argument as the caller may pass it: either an
ordered pair of reals or a value that is not a pair at all. -/
inductive BoundsArg where
  | pair (lo hi : ℝ)
  | notPair
deriving DecidableEq

/-- Modelled from the spec: apply_stdp as called with dynamically typed
arguments.  The head of src/archive/apply_stdp.py, which held the type
checks, is missing, so they are reconstructed from spec sections 4.1 and 7
and from tests/test_apply_stdp.py: non-collection spike trains and a
non-pair weight_bounds raise a TypeError naming the argument, after which
the value checks of stdp_validate run, and only then is the computation
section reached. -/
def apply_stdp_dyn (pre post : SpikeArg) (current_weight : ℝ)
    (is_inhibitory : Bool) (A_plus A_minus tau_plus tau_minus : ℝ)
    (A_plus_inh A_minus_inh tau_plus_inh tau_minus_inh : Option ℝ)
    (eta gamma : ℝ) (bounds : BoundsArg) (eligibility_trace : ℝ) :
    Except StdpErr (ℝ × ℝ) :=
  match pre with
  | .notNumeric => .error (.typeErr "spike_times_pre")
  | .numList ps =>
    match post with
    | .notNumeric => .error (.typeErr "spike_times_post")
    | .numList qs =>
      match bounds with
      | .notPair => .error (.typeErr "weight_bounds")
      | .pair lo hi =>
        apply_stdp ps qs current_weight is_inhibitory A_plus A_minus
          tau_plus tau_minus A_plus_inh A_minus_inh tau_plus_inh
          tau_minus_inh eta gamma lo hi eligibility_trace

/-- Weight component of a successful apply_stdp result (0 on error). -/
def ok_weight (r : Except StdpErr (ℝ × ℝ)) : ℝ :=
  match r with
  | .ok p => p.1
  | .error _ => 0

/-- Trace component of a successful apply_stdp result (0 on error). -/
def ok_trace (r : Except StdpErr (ℝ × ℝ)) : ℝ :=
  match r with
  | .ok p => p.2
  | .error _ => 0

/-- The global numpy random generator, modelled by explicit state passing:
an infinite stream of draws together with a cursor.  Every call to
np.random reads draws at the cursor and advances it, which is the shared
mutable state the spec says no function has. -/
structure Rng where
  seq : ℕ → ℝ
  pos : ℕ

/-- Shallow embedding of np.random.rand(n): n draws from the generator
stream, advancing the cursor by n. -/
def np_rand (r : Rng) (n : ℕ) : List ℝ × Rng :=
  ((List.range n).map fun j => r.seq (r.pos + j), ⟨r.seq, r.pos + n⟩)

/-- Shallow embedding of np.random.normal(mu, sigma, n): each draw from
the stream is scaled to mu + sigma * draw, advancing the cursor by n. -/
def np_normal (r : Rng) (mu sigma : ℝ) (n : ℕ) : List ℝ × Rng :=
  ((List.range n).map fun j => mu + sigma * r.seq (r.pos + j),
   ⟨r.seq, r.pos + n⟩)

/-- The element-wise in-place update mutated_weights[mask] += mutations[mask]
from src/src/evolutionary/apply_mutation.py: every masked index of the
array is overwritten with its old value plus the matching mutation. -/
def masked_add (arr : List ℝ) (mask : List Bool) (muts : List ℝ) : List ℝ :=
  (List.range arr.length).foldl
    (fun a i => if mask.getD i false then a.set i (a.getD i 0 + muts.getD i 0)
      else a) arr

/-- The body of apply_mutation (src/src/evolutionary/apply_mutation.py)
with the argument array threaded through explicitly: returns the weights
argument as it stands after the call, the freshly built mutated array, and
the advanced random generator.  The source draws the uniform mask, draws
the Gaussian mutations, copies the weights, and adds the mutations at the
masked indices of the copy. -/
def apply_mutation_impl (rng : Rng) (weights : List ℝ)
    (mutation_rate mutation_scale : ℝ) : List ℝ × List ℝ × Rng :=
  let u := np_rand rng weights.length
  let m := np_normal u.2 0 mutation_scale weights.length
  let mutation_mask := u.1.map fun x => decide (x < mutation_rate)
  let mutated_weights := masked_add weights mutation_mask m.1
  (weights, mutated_weights, m.2)

/-- The result of apply_mutation as the caller sees it: the mutated array
and the advanced random generator state. -/
def apply_mutation (rng : Rng) (weights : List ℝ)
    (mutation_rate mutation_scale : ℝ) : List ℝ × Rng :=
  ((apply_mutation_impl rng weights mutation_rate mutation_scale).2.1,
   (apply_mutation_impl rng weights mutation_rate mutation_scale).2.2)

/-- Shallow embedding of np.arange(start, stop, step): start + i * step for
i below the ceiling of (stop - start) / step. -/
def np_arange (start stop step : ℝ) : List ℝ :=
  (List.range ⌈(stop - start) / step⌉₊).map fun i => start + i * step

/-- Shallow embedding of the numpy broadcast comparison a < b between two
1-D arrays: elementwise when the lengths agree, broadcast when one operand
has a single element, and a ValueError otherwise. -/
def np_lt_broadcast (xs ys : List ℝ) : Except String (List Bool) :=
  if xs.length = ys.length then
    .ok (List.zipWith (fun x y => decide (x < y)) xs ys)
  else if xs.length = 1 then
    .ok (ys.map fun y => decide (xs.getD 0 0 < y))
  else if ys.length = 1 then
    .ok (xs.map fun x => decide (x < ys.getD 0 0))
  else .error "operands could not be broadcast together"

/-- Body of generate_fractal_spike_train
(src/src/fractal_analysis/fractal_spike_train.py) over the explicit
random generator: the exponentially decaying rate is evaluated on the
time grid np.arange(0, duration, dt), int(duration / dt) uniform draws
are compared against rate * dt / 1000 by numpy broadcasting - which
raises a ValueError whenever int(duration / dt) differs from the length
of the time grid - and the indices of the successful draws are scaled by
dt to give the spike times.  The generator has already advanced by the
time the comparison runs, so the advanced state is returned on the error
path as well. -/
def generate_fractal_spike_train (rng : Rng)
    (fractal_dimension k tau_f duration dt : ℝ) :
    Except String (List ℝ) × Rng :=
  let n_steps := ⌊duration / dt⌋₊
  let time := np_arange 0 duration dt
  let spike_rate := time.map fun t =>
    k * fractal_dimension * Real.exp (-t / tau_f)
  let u := np_rand rng n_steps
  match np_lt_broadcast u.1 (spike_rate.map fun r => r * dt / 1000) with
  | .error e => (.error e, u.2)
  | .ok spike_train =>
    let idxs := (List.range spike_train.length).filter
      fun i => spike_train.getD i false
    (.ok (idxs.map fun i => (i : ℝ) * dt), u.2)

/-- One iteration of the finite-difference loop of calculate_jacobian
(src/src/dynamical_systems/calculate_jacobian.py), with the point
argument threaded through the state: p_plus is a copy of the point with
epsilon added at index i, and the column (func(p_plus) - f0) / epsilon is
appended to the columns collected so far.  The point component of the
state is whatever the iteration leaves in the point argument. -/
def calc_jacobian_step (func : List ℝ → List ℝ) (epsilon : ℝ)
    (f0 : List ℝ) (st : List ℝ × List (List ℝ)) (i : ℕ) :
    List ℝ × List (List ℝ) :=
  let point := st.1
  let p_plus := point.set i (point.getD i 0 + epsilon)
  let f_plus := func p_plus
  (point, st.2 ++ [List.zipWith (fun a b => (a - b) / epsilon) f_plus f0])

/-- Loop state of calculate_jacobian after all n iterations, starting
from the point argument and no columns. -/
def calc_jacobian_state (func : List ℝ → List ℝ) (point : List ℝ)
    (epsilon : ℝ) : List ℝ × List (List ℝ) :=
  (List.range point.length).foldl
    (calc_jacobian_step func epsilon (func point)) (point, [])

/-- calculate_jacobian: the list of columns of the finite-difference
Jacobian at the point (the source stores column i into jacobian[:, i]). -/
def calculate_jacobian (func : List ℝ → List ℝ) (point : List ℝ)
    (epsilon : ℝ) : List (List ℝ) :=
  (calc_jacobian_state func point epsilon).2

/-- The Grunwald-Letnikov implementation of caputo_derivative
(src/src/fractional_calculus/caputo_derivative.py), translated directly:
for each i the coefficients Gamma(k - alpha) / (Gamma(-alpha) * Gamma(k + 1))
weight f[i - k], and the sum is divided by dt ** alpha.  The source
performs no validation of any argument. -/
def caputo_derivative (f : List ℝ) (alpha : ℝ) (dt : ℝ) : List ℝ :=
  (List.range f.length).map fun (i : ℕ) =>
    ((List.range (i + 1)).map fun (k : ℕ) =>
      Real.Gamma ((k : ℝ) - alpha)
        / (Real.Gamma (-alpha) * Real.Gamma ((k : ℝ) + 1))
        * f.getD (i - k : ℕ) 0).sum
    / dt ^ alpha

/-- The points argument of compute_persistent_homology: either a 2D numpy
array with a shape and entries, or anything else (wrong dtype or wrong
number of dimensions), which is rejected with a TypeError. -/
inductive PHPoints where
  | arr (nrows ncols : ℕ) (entry : ℕ → ℕ → ℝ)
  | notArr2d

/-- The call compute_persistent_homology hands to the ripser
library: the array, the maximum homology dimension, and whether the array
was passed as a precomputed distance matrix. -/
structure RipserCall where
  nrows : ℕ
  ncols : ℕ
  entry : ℕ → ℕ → ℝ
  maxdim : ℤ
  distance_matrix : Bool

/-- Errors raised by compute_persistent_homology. -/
inductive PHErr where
  | typeErr (msg : String)
  | valueErr (msg : String)
deriving DecidableEq

/-- compute_persistent_homology (src/src/tda/compute_persistent_homology.py):
reject a non-2D input with a TypeError and a negative max_dim with a
ValueError; then call ripser with distance_matrix=True exactly when the
array is square, and as a point cloud otherwise.  The outgoing ripser call
is modelled by returning its argument record. -/
def compute_persistent_homology (points : PHPoints) (max_dim : ℤ) :
    Except PHErr RipserCall :=
  match points with
  | .notArr2d => .error (.typeErr "points must be a 2D numpy array.")
  | .arr r c e =>
    if max_dim < 0 then
      .error (.valueErr "max_dim must be a non-negative integer.")
    else
      .ok ⟨r, c, e, max_dim, decide (r = c)⟩

/-- One pyplot call recorded in the global matplotlib state: opening a
new figure (with its histograms, labels, title, legend and grid drawn
into it), and the final savefig file write or interactive display.  The
histogram commands record the matrix whose eigenvalue real or imaginary
parts are binned - np.linalg.eigvals being a numpy routine, its call is
modelled by recording its argument, as with ripser. -/
inductive PltCmd where
  | newFigure
  | histRealParts (nrows ncols : ℕ) (entry : ℕ → ℕ → ℝ) (bins : String)
  | histImagParts (nrows ncols : ℕ) (entry : ℕ → ℕ → ℝ) (bins : String)
  | savefig (path : String)
  | display

/-- plot_eigenvalue_spectrum (src/src/rmt/plot_eigenvalue_spectrum.py),
with the global matplotlib pyplot state threaded explicitly as the list
of commands executed so far: reject a non-2D input with a TypeError,
then append a figure with the two eigenvalue-part histograms, and finish
with a savefig write when save_path is given or an interactive display
otherwise.  Every call therefore reads and extends state shared between
invocations and performs file or display output. -/
def plot_eigenvalue_spectrum (plt : List PltCmd) (matrix : PHPoints)
    (bins : String) (save_path : Option String) :
    Except PHErr (List PltCmd) :=
  match matrix with
  | .notArr2d => .error (.typeErr "Input must be a 2D numpy array.")
  | .arr r c e =>
    let plt1 := plt ++ [.newFigure, .histRealParts r c e bins,
      .histImagParts r c e bins]
    match save_path with
    | some p => .ok (plt1 ++ [.savefig p])
    | none => .ok (plt1 ++ [.display])

/-- Errors raised by linear_system_solver. -/
inductive LinErr where
  | nonSquare
  | incompatible
  | singular
deriving DecidableEq

/-- Modelled from the spec: the linear_system_solver implementation is
absent from src (only its tests and examples remain), so it is
reconstructed from spec section 8 and the tests: reject a non-square
matrix and incompatible shapes with ValueError, raise LinAlgError on a
singular matrix as np.linalg.solve does, and otherwise return the
solution of A x = b. -/
def linear_system_solver (m n k : ℕ) (A : Matrix (Fin m) (Fin n) ℝ)
    (b : Fin k → ℝ) : Except LinErr (Fin n → ℝ) :=
  if hm : m = n then
    if hk : k = n then
      let A2 : Matrix (Fin n) (Fin n) ℝ :=
        A.submatrix (Fin.cast hm.symm) id
      let b2 : Fin n → ℝ := fun i => b (Fin.cast hk.symm i)
      if A2.det = 0 then .error .singular else .ok (A2⁻¹.mulVec b2)
    else .error .incompatible
  else .error .nonSquare

lemma np_clip_le_hi (x lo hi : ℝ) : np_clip x lo hi ≤ hi :=
  min_le_right _ _

lemma np_clip_ge_lo (x lo hi : ℝ) (h : lo ≤ hi) : lo ≤ np_clip x lo hi :=
  le_min (le_max_right _ _) h

lemma np_clip_gt (x lo hi w : ℝ) (hw : w < hi) (hx : w < x) :
    w < np_clip x lo hi :=
  lt_min (lt_of_lt_of_le hx (le_max_left _ _)) hw

lemma np_clip_eq_self (x lo hi : ℝ) (h1 : lo ≤ x) (h2 : x ≤ hi) :
    np_clip x lo hi = x := by
  unfold np_clip
  rw [max_eq_left h1, min_eq_left h2]

lemma pairSum_eq_zero (f : ℝ → ℝ → ℝ) (c : ℝ → ℝ → Bool)
    (outer inner : List ℝ)
    (h : ∀ a ∈ outer, ∀ b ∈ inner, c a b = false) :
    pairSum f c outer inner = 0 := by
  unfold pairSum
  apply List.sum_eq_zero
  intro x hx
  rcases List.mem_map.mp hx with ⟨a, ha, rfl⟩
  apply List.sum_eq_zero
  intro y hy
  rcases List.mem_map.mp hy with ⟨b, hb, rfl⟩
  rw [h a ha b hb]
  simp

lemma pairSum_pos (f : ℝ → ℝ → ℝ) (c : ℝ → ℝ → Bool)
    (outer inner : List ℝ) (ho : outer ≠ []) (hin : inner ≠ [])
    (hc : ∀ a ∈ outer, ∀ b ∈ inner, c a b = true)
    (hf : ∀ a ∈ outer, ∀ b ∈ inner, 0 < f a b) :
    0 < pairSum f c outer inner := by
  unfold pairSum
  apply List.sum_pos
  · intro x hx
    rcases List.mem_map.mp hx with ⟨a, ha, rfl⟩
    apply List.sum_pos
    · intro y hy
      rcases List.mem_map.mp hy with ⟨b, hb, rfl⟩
      rw [hc a ha b hb, if_pos rfl]
      exact hf a ha b hb
    · simpa [List.map_eq_nil] using hin
  · simpa [List.map_eq_nil] using ho

lemma pairAny_true_iff (c : ℝ → ℝ → Bool) (outer inner : List ℝ) :
    pairAny c outer inner = true ↔ ∃ a ∈ outer, ∃ b ∈ inner, c a b = true := by
  unfold pairAny
  simp [List.any_eq_true]

lemma exp_neg_hundred_lt : Real.exp (-100) < 0.2 := by
  have h : (101 : ℝ) ≤ Real.exp 100 := by
    have := Real.add_one_le_exp (100 : ℝ)
    linarith
  have hinv : (Real.exp 100)⁻¹ ≤ (101 : ℝ)⁻¹ := by
    apply inv_le_inv_of_le
    · norm_num
    · exact h
  rw [Real.exp_neg]
  have : ((101 : ℝ))⁻¹ < 0.2 := by norm_num
  linarith

lemma exp_neg_one_lt_half : Real.exp (-1) < 1 / 2 := by
  have h : (2 : ℝ) < Real.exp 1 := by
    have := Real.add_one_lt_exp (one_ne_zero (α := ℝ))
    linarith
  have hinv : (Real.exp 1)⁻¹ < (2 : ℝ)⁻¹ :=
    inv_lt_inv_of_lt (by norm_num) h
  rw [Real.exp_neg]
  have : ((2 : ℝ))⁻¹ = 1 / 2 := by norm_num
  linarith

lemma cex_kernel_eval : exc_kernel_delta [0] [100] 1 1 1 1 = Real.exp (-100) := by
  unfold exc_kernel_delta pairSum
  norm_num

lemma cex_adjusted_eval : exc_adjusted_delta [0] [100] (1 / 5) 1 1 1 1 = 1 / 5 := by
  have hexp0 : ¬ Real.exp (-100) ≤ 0 := not_le.mpr (Real.exp_pos _)
  have hexp2 : Real.exp (-100) ≤ 1 * 0.2 := by
    have := exp_neg_hundred_lt
    norm_num at this ⊢
    linarith
  have hP : pairAny (fun a b => decide (a < b)) [0] [100] = true := by
    rw [pairAny_true_iff]
    exact ⟨0, by simp, 100, by simp, by norm_num⟩
  have hD : pairAny (fun a b => decide (b < a)) [0] [100] = false := by
    unfold pairAny
    norm_num
  simp only [exc_adjusted_delta]
  rw [cex_kernel_eval, hP, hD]
  norm_num [hexp0, max_eq_right hexp2]
  have := exp_neg_hundred_lt
  norm_num at this
  linarith

lemma masked_add_length (arr : List ℝ) (mask : List Bool) (muts : List ℝ) :
    (masked_add arr mask muts).length = arr.length := by
  unfold masked_add
  have aux : ∀ (l : List ℕ) (a : List ℝ),
      (l.foldl (fun a i => if mask.getD i false then
        a.set i (a.getD i 0 + muts.getD i 0) else a) a).length = a.length := by
    intro l
    induction l with
    | nil => intro a; rfl
    | cons i l ih =>
        intro a
        simp only [List.foldl_cons, ih]
        split_ifs <;> simp [List.length_set]
  exact aux _ _

lemma calc_jacobian_state_fst (func : List ℝ → List ℝ) (point : List ℝ)
    (epsilon : ℝ) : (calc_jacobian_state func point epsilon).1 = point := by
  unfold calc_jacobian_state
  have aux : ∀ (l : List ℕ) (st : List ℝ × List (List ℝ)),
      (l.foldl (calc_jacobian_step func epsilon (func point)) st).1 = st.1 := by
    intro l
    induction l with
    | nil => intro st; rfl
    | cons i l ih =>
        intro st
        simp only [List.foldl_cons, ih]
        rfl
  exact aux _ _

lemma calc_jacobian_state_cols (func : List ℝ → List ℝ) (point : List ℝ)
    (epsilon : ℝ) :
    (calc_jacobian_state func point epsilon).2.length = point.length := by
  unfold calc_jacobian_state
  have aux : ∀ (l : List ℕ) (st : List ℝ × List (List ℝ)),
      (l.foldl (calc_jacobian_step func epsilon (func point)) st).2.length
        = st.2.length + l.length := by
    intro l
    induction l with
    | nil => intro st; simp
    | cons i l ih =>
        intro st
        simp only [List.foldl_cons, ih, calc_jacobian_step]
        simp
        omega
  rw [aux]
  simp

lemma stdp_delta_nil (w : ℝ) (inh : Bool) (Ap Am tp tm : ℝ)
    (Api Ami tpi tmi : Option ℝ) :
    stdp_delta [] [] w inh Ap Am tp tm Api Ami tpi tmi = 0 := by
  cases inh <;>
    simp [stdp_delta, inh_delta, exc_adjusted_delta, exc_kernel_delta,
      pairSum, pairAny]

/-- C2, counterexample: with empty spike trains but a weight of 5 outside
the bounds (0, 1), apply_stdp clips the returned weight to 1 instead of
returning the weight unchanged as the claim states. -/
theorem C2_cex :
    apply_stdp [] [] 5 false 1 1 1 1 none none none none 1 (1 / 2) 0 1 (1 / 10)
      ≠ .ok (5, 1 / 2 * (1 / 10)) := by
  have hres : apply_stdp [] [] 5 false 1 1 1 1 none none none none 1 (1 / 2)
      0 1 (1 / 10) = .ok (1, 1 / 2 * (1 / 10)) := by
    rw [apply_stdp_ok [] [] 5 false 1 1 1 1 none none none none 1 (1 / 2) 0 1
        (1 / 10) (by simp) (by norm_num) (by norm_num) (by norm_num)
        (by norm_num) (by norm_num) (by norm_num) (by norm_num) (by norm_num),
      apply_stdp_core_eq, stdp_delta_nil]
    norm_num [np_clip]
  rw [hres]
  intro heq
  simp only [Except.ok.injEq, Prod.mk.injEq] at heq
  norm_num at heq

/-- C2 (amended): with both spike trains empty the raw delta is zero, the
trace decays to exactly gamma * e, and the returned weight is
clip(w, bounds) - which is w itself whenever w lies within the bounds. -/
theorem C2_empty_trains (w tr : ℝ) (inh : Bool) (Ap Am tp tm : ℝ)
    (Api Ami tpi tmi : Option ℝ) (eta gamma lo hi : ℝ)
    (hw1 : inh = true → w ≤ 0) (hw2 : inh = false → 0 ≤ w)
    (htp : 0 < tp) (htm : 0 < tm) (htpi : 0 < tpi.getD tp)
    (htmi : 0 < tmi.getD tm) (hg0 : 0 ≤ gamma) (hg1 : gamma ≤ 1)
    (hlh : lo ≤ hi) :
    apply_stdp [] [] w inh Ap Am tp tm Api Ami tpi tmi eta gamma lo hi tr
      = .ok (np_clip w lo hi, gamma * tr)
    ∧ (lo ≤ w → w ≤ hi →
        apply_stdp [] [] w inh Ap Am tp tm Api Ami tpi tmi eta gamma lo hi tr
          = .ok (w, gamma * tr)) := by
  have base : apply_stdp [] [] w inh Ap Am tp tm Api Ami tpi tmi eta gamma lo
      hi tr = .ok (np_clip w lo hi, gamma * tr) := by
    rw [apply_stdp_ok [] [] w inh Ap Am tp tm Api Ami tpi tmi eta gamma lo hi
        tr hw1 hw2 htp htm htpi htmi hg0 hg1 hlh,
      apply_stdp_core_eq, stdp_delta_nil]
    simp
  refine ⟨base, fun h1 h2 => ?_⟩
  rw [base, np_clip_eq_self w lo hi h1 h2]

theorem C2_witness :
    apply_stdp [] [] (1 / 2) false 1 1 1 1 none none none none 1 (9 / 10) 0 1
        (1 / 10)
      = .ok (1 / 2, 9 / 10 * (1 / 10)) :=
  (C2_empty_trains (1 / 2) (1 / 10) false 1 1 1 1 none none none none 1
      (9 / 10) 0 1 (by simp) (by norm_num) (by norm_num) (by norm_num)
      (by norm_num) (by norm_num) (by norm_num) (by norm_num) (by norm_num)).2
    (by norm_num) (by norm_num)

/-- C3, counterexample: with bounds (0, 0.5), weight 0.2 and adjusted
delta 0.2, the learning rate 1 gives weight change 0.2 but the learning
rate 2 gives weight change 0.3 because the update is clipped at the upper
bound, so doubling eta does not double the weight change. -/
theorem C3_cex :
    ok_weight (apply_stdp [0] [100] (1 / 5) false 1 1 1 1 none none none none
        2 (1 / 2) 0 (1 / 2) 0) - 1 / 5
      ≠ 2 * (ok_weight (apply_stdp [0] [100] (1 / 5) false 1 1 1 1 none none
          none none 1 (1 / 2) 0 (1 / 2) 0) - 1 / 5) := by
  have hadj : stdp_delta [0] [100] (1 / 5) false 1 1 1 1 none none none none
      = 1 / 5 := by
    unfold stdp_delta
    norm_num [cex_adjusted_eval]
  have h1 : apply_stdp [0] [100] (1 / 5) false 1 1 1 1 none none none none 1
      (1 / 2) 0 (1 / 2) 0 = .ok (np_clip (1 / 5 + 1 * (1 / 5)) 0 (1 / 2),
        1 / 2 * 0 + 1 / 5) := by
    rw [apply_stdp_ok [0] [100] (1 / 5) false 1 1 1 1 none none none none 1
        (1 / 2) 0 (1 / 2) 0 (by simp) (by norm_num) (by norm_num) (by norm_num)
        (by norm_num) (by norm_num) (by norm_num) (by norm_num) (by norm_num),
      apply_stdp_core_eq, hadj]
    rw [if_neg (by rintro ⟨h, -⟩; norm_num at h)]
  have h2 : apply_stdp [0] [100] (1 / 5) false 1 1 1 1 none none none none 2
      (1 / 2) 0 (1 / 2) 0 = .ok (np_clip (1 / 5 + 2 * (1 / 5)) 0 (1 / 2),
        1 / 2 * 0 + 1 / 5) := by
    rw [apply_stdp_ok [0] [100] (1 / 5) false 1 1 1 1 none none none none 2
        (1 / 2) 0 (1 / 2) 0 (by simp) (by norm_num) (by norm_num) (by norm_num)
        (by norm_num) (by norm_num) (by norm_num) (by norm_num) (by norm_num),
      apply_stdp_core_eq, hadj]
    rw [if_neg (by rintro ⟨h, -⟩; norm_num at h)]
  rw [h1, h2]
  norm_num [ok_weight, np_clip]

/-- C3 (amended): the adjusted raw delta D is independent of eta, and as
long as neither updated weight is clipped (w + eta * D and w + 2 eta * D
both lie within the bounds), calling with 2 eta gives exactly twice the
weight change of calling with eta. -/
theorem C3_eta_linear (pre post : List ℝ) (w tr : ℝ) (inh : Bool)
    (Ap Am tp tm : ℝ) (Api Ami tpi tmi : Option ℝ) (eta gamma lo hi : ℝ)
    (hw1 : inh = true → w ≤ 0) (hw2 : inh = false → 0 ≤ w)
    (htp : 0 < tp) (htm : 0 < tm) (htpi : 0 < tpi.getD tp)
    (htmi : 0 < tmi.getD tm) (hg0 : 0 ≤ gamma) (hg1 : gamma ≤ 1)
    (hlh : lo ≤ hi)
    (hin1 : lo ≤ w + eta * stdp_delta pre post w inh Ap Am tp tm Api Ami tpi tmi)
    (hin2 : w + eta * stdp_delta pre post w inh Ap Am tp tm Api Ami tpi tmi ≤ hi)
    (hin3 : lo ≤ w + 2 * eta * stdp_delta pre post w inh Ap Am tp tm Api Ami tpi tmi)
    (hin4 : w + 2 * eta * stdp_delta pre post w inh Ap Am tp tm Api Ami tpi tmi ≤ hi) :
    ok_weight (apply_stdp pre post w inh Ap Am tp tm Api Ami tpi tmi
        (2 * eta) gamma lo hi tr) - w
      = 2 * (ok_weight (apply_stdp pre post w inh Ap Am tp tm Api Ami tpi tmi
          eta gamma lo hi tr) - w) := by
  rw [apply_stdp_ok pre post w inh Ap Am tp tm Api Ami tpi tmi (2 * eta)
      gamma lo hi tr hw1 hw2 htp htm htpi htmi hg0 hg1 hlh,
    apply_stdp_ok pre post w inh Ap Am tp tm Api Ami tpi tmi eta gamma lo hi
      tr hw1 hw2 htp htm htpi htmi hg0 hg1 hlh,
    apply_stdp_core_eq, apply_stdp_core_eq]
  simp only [ok_weight]
  rw [np_clip_eq_self _ _ _ hin1 hin2, np_clip_eq_self _ _ _ hin3 hin4]
  ring

theorem C3_witness :
    ok_weight (apply_stdp [] [] (1 / 2) false 1 1 1 1 none none none none
        (2 * 1) (1 / 2) 0 1 0) - 1 / 2
      = 2 * (ok_weight (apply_stdp [] [] (1 / 2) false 1 1 1 1 none none none
          none 1 (1 / 2) 0 1 0) - 1 / 2) :=
  C3_eta_linear [] [] (1 / 2) 0 false 1 1 1 1 none none none none 1 (1 / 2) 0
    1 (by simp) (by norm_num) (by norm_num) (by norm_num) (by norm_num)
    (by norm_num) (by norm_num) (by norm_num) (by norm_num)
    (by rw [stdp_delta_nil]; norm_num) (by rw [stdp_delta_nil]; norm_num)
    (by rw [stdp_delta_nil]; norm_num) (by rw [stdp_delta_nil]; norm_num)

lemma pairAny_true_of (c : ℝ → ℝ → Bool) (outer inner : List ℝ)
    (ho : outer ≠ []) (hin : inner ≠ [])
    (hc : ∀ a ∈ outer, ∀ b ∈ inner, c a b = true) :
    pairAny c outer inner = true := by
  rw [pairAny_true_iff]
  obtain ⟨a, ha⟩ := List.exists_mem_of_ne_nil outer ho
  obtain ⟨b, hb⟩ := List.exists_mem_of_ne_nil inner hin
  exact ⟨a, ha, b, hb, hc a ha b hb⟩

lemma pairAny_false_of (c : ℝ → ℝ → Bool) (outer inner : List ℝ)
    (hc : ∀ a ∈ outer, ∀ b ∈ inner, c a b = false) :
    pairAny c outer inner = false := by
  unfold pairAny
  rw [List.any_eq_false]
  intro a ha
  rw [Bool.not_eq_true, List.any_eq_false]
  intro b hb
  simp [hc a ha b hb]

lemma exc_adjusted_pos (pre post : List ℝ)
    (w Ap Am tp tm : ℝ) (hpre : pre ≠ []) (hpost : post ≠ [])
    (hall : ∀ a ∈ pre, ∀ b ∈ post, a < b) (hAp : 0 < Ap) :
    0 < exc_adjusted_delta pre post w Ap Am tp tm := by
  have hdep : pairSum (fun a b => -(Am * Real.exp ((b - a) / tm)))
      (fun a b => decide (b < a)) pre post = 0 :=
    pairSum_eq_zero _ _ _ _ (fun a ha b hb =>
      decide_eq_false (not_lt.mpr (le_of_lt (hall a ha b hb))))
  have hpot : 0 < pairSum (fun a b => Ap * Real.exp (-(b - a) / tp))
      (fun a b => decide (a < b)) pre post :=
    pairSum_pos _ _ _ _ hpre hpost
      (fun a ha b hb => decide_eq_true (hall a ha b hb))
      (fun a ha b hb => mul_pos hAp (Real.exp_pos _))
  have hasP : pairAny (fun a b => decide (a < b)) pre post = true :=
    pairAny_true_of _ _ _ hpre hpost
      (fun a ha b hb => decide_eq_true (hall a ha b hb))
  have hker : 0 < exc_kernel_delta pre post Ap Am tp tm := by
    unfold exc_kernel_delta
    rw [hdep, add_zero]
    exact hpot
  have hasD : pairAny (fun a b => decide (b < a)) pre post = false :=
    pairAny_false_of _ _ _ (fun a ha b hb =>
      decide_eq_false (not_lt.mpr (le_of_lt (hall a ha b hb))))
  simp only [exc_adjusted_delta, hasP, hasD]
  split_ifs with h1 h2 h3 h4 h5
  · exact lt_max_iff.mpr (Or.inl (by positivity))
  · exact lt_max_iff.mpr (Or.inr (by positivity))
  · exact lt_max_iff.mpr (Or.inl hker)
  · positivity
  · exact absurd h5.1 (by simp)
  · exact hker

lemma inh_delta_pos (pre post : List ℝ) (Api Ami tpi tmi : ℝ)
    (hpre : pre ≠ []) (hpost : post ≠ [])
    (hall : ∀ a ∈ pre, ∀ b ∈ post, a < b) (hAmi : 0 < Ami) :
    0 < inh_delta pre post Api Ami tpi tmi := by
  have h2 : pairSum (fun a b => -(Api * Real.exp ((b - a) / tpi)))
      (fun a b => decide (b < a)) pre post = 0 :=
    pairSum_eq_zero _ _ _ _ (fun a ha b hb =>
      decide_eq_false (not_lt.mpr (le_of_lt (hall a ha b hb))))
  have h1 : 0 < pairSum (fun a b => Ami * Real.exp (-(a - b) / tmi))
      (fun a b => decide (b < a)) post pre :=
    pairSum_pos _ _ _ _ hpost hpre
      (fun a ha b hb => decide_eq_true (hall b hb a ha))
      (fun a ha b hb => mul_pos hAmi (Real.exp_pos _))
  unfold inh_delta
  rw [h2, add_zero]
  exact h1

/-- C4, counterexample: an inhibitory synapse with pre = [0], post = [1]
(post strictly after pre) and weight -0.5 has its weight strictly
increased (made less negative) by apply_stdp, where the claim says it is
strictly decreased (made more negative).  This matches the repository
test test_inhibitory_depression, which also expects an increase. -/
theorem C4_cex :
    -(1 / 2)
      < ok_weight (apply_stdp [0] [1] (-(1 / 2)) true 1 1 1 1 none none none
          none 1 (1 / 2) (-1) 0 0) := by
  have hD : stdp_delta [0] [1] (-(1 / 2)) true 1 1 1 1 none none none none
      = Real.exp (-1) := by
    unfold stdp_delta inh_delta pairSum
    norm_num
  have hres : apply_stdp [0] [1] (-(1 / 2)) true 1 1 1 1 none none none none
      1 (1 / 2) (-1) 0 0
      = .ok (np_clip (-(1 / 2) + 1 * Real.exp (-1)) (-1) 0,
          1 / 2 * 0 + Real.exp (-1)) := by
    rw [apply_stdp_ok [0] [1] (-(1 / 2)) true 1 1 1 1 none none none none 1
        (1 / 2) (-1) 0 0 (by norm_num) (by simp) (by norm_num) (by norm_num)
        (by norm_num) (by norm_num) (by norm_num) (by norm_num) (by norm_num),
      apply_stdp_core_eq, hD]
    rw [if_neg (by rintro ⟨h, -⟩; norm_num at h)]
  rw [hres]
  have hpos := Real.exp_pos (-1 : ℝ)
  have hlt := exp_neg_one_lt_half
  simp only [ok_weight]
  rw [np_clip_eq_self _ _ _ (by linarith) (by linarith)]
  linarith

/-- C4 (amended): for a non-empty spike pattern with every post spike
after every pre spike, positive amplitudes and learning rate, and a
current weight strictly below the upper bound, apply_stdp strictly
increases the excitatory weight (potentiation) and also strictly
increases the inhibitory weight, that is, makes it less negative
(depression, as the repository tests expect); in both cases the returned
weight lies within the configured bounds. -/
theorem C4_potentiation_pattern (pre post : List ℝ)
    (hpre : pre ≠ []) (hpost : post ≠ [])
    (hall : ∀ a ∈ pre, ∀ b ∈ post, a < b)
    (Ap Am tp tm : ℝ) (Api Ami tpi tmi : Option ℝ)
    (hAp : 0 < Ap) (hAmi : 0 < Ami.getD Am)
    (htp : 0 < tp) (htm : 0 < tm) (htpi : 0 < tpi.getD tp)
    (htmi : 0 < tmi.getD tm)
    (eta gamma : ℝ) (heta : 0 < eta) (hg0 : 0 ≤ gamma) (hg1 : gamma ≤ 1)
    (we lo1 hi1 : ℝ) (hwe0 : 0 ≤ we) (hlh1 : lo1 ≤ hi1) (hwe : we < hi1)
    (wi lo2 hi2 : ℝ) (hwi0 : wi ≤ 0) (hlh2 : lo2 ≤ hi2) (hwi : wi < hi2)
    (tr : ℝ) :
    (we < ok_weight (apply_stdp pre post we false Ap Am tp tm Api Ami tpi tmi
        eta gamma lo1 hi1 tr)
      ∧ lo1 ≤ ok_weight (apply_stdp pre post we false Ap Am tp tm Api Ami tpi
          tmi eta gamma lo1 hi1 tr)
      ∧ ok_weight (apply_stdp pre post we false Ap Am tp tm Api Ami tpi tmi
          eta gamma lo1 hi1 tr) ≤ hi1)
    ∧ (wi < ok_weight (apply_stdp pre post wi true Ap Am tp tm Api Ami tpi tmi
        eta gamma lo2 hi2 tr)
      ∧ lo2 ≤ ok_weight (apply_stdp pre post wi true Ap Am tp tm Api Ami tpi
          tmi eta gamma lo2 hi2 tr)
      ∧ ok_weight (apply_stdp pre post wi true Ap Am tp tm Api Ami tpi tmi
          eta gamma lo2 hi2 tr) ≤ hi2) := by
  constructor
  · rw [apply_stdp_ok pre post we false Ap Am tp tm Api Ami tpi tmi eta gamma
        lo1 hi1 tr (by simp) (fun _ => hwe0) htp htm htpi htmi hg0 hg1 hlh1,
      apply_stdp_core_eq]
    simp only [ok_weight]
    have hD : 0 < stdp_delta pre post we false Ap Am tp tm Api Ami tpi tmi := by
      unfold stdp_delta
      simp only [Bool.false_eq_true, if_false]
      exact exc_adjusted_pos pre post we Ap Am tp tm hpre hpost hall hAp
    refine ⟨np_clip_gt _ _ _ _ hwe (by nlinarith), np_clip_ge_lo _ _ _ hlh1,
      np_clip_le_hi _ _ _⟩
  · rw [apply_stdp_ok pre post wi true Ap Am tp tm Api Ami tpi tmi eta gamma
        lo2 hi2 tr (fun _ => hwi0) (by simp) htp htm htpi htmi hg0 hg1 hlh2,
      apply_stdp_core_eq]
    simp only [ok_weight]
    have hD : 0 < stdp_delta pre post wi true Ap Am tp tm Api Ami tpi tmi := by
      unfold stdp_delta
      simp only [if_true]
      exact inh_delta_pos pre post (Api.getD Ap) (Ami.getD Am) (tpi.getD tp)
        (tmi.getD tm) hpre hpost hall hAmi
    refine ⟨np_clip_gt _ _ _ _ hwi (by nlinarith), np_clip_ge_lo _ _ _ hlh2,
      np_clip_le_hi _ _ _⟩

theorem C4_witness :
    1 / 2 < ok_weight (apply_stdp [0] [1] (1 / 2) false 1 1 1 1 none none none
        none 1 (1 / 2) 0 1 0)
    ∧ -(1 / 2) < ok_weight (apply_stdp [0] [1] (-(1 / 2)) true 1 1 1 1 none
        none none none 1 (1 / 2) (-1) 0 0) := by
  have h := C4_potentiation_pattern [0] [1] (by simp) (by simp)
    (by
      intro a ha b hb
      simp only [List.mem_singleton] at ha hb
      subst ha; subst hb
      norm_num)
    1 1 1 1 none none none none (by norm_num) (by norm_num) (by norm_num)
    (by norm_num) (by norm_num) (by norm_num) 1 (1 / 2) (by norm_num)
    (by norm_num) (by norm_num) (1 / 2) 0 1 (by norm_num) (by norm_num)
    (by norm_num) (-(1 / 2)) (-1) 0 (by norm_num) (by norm_num) (by norm_num) 0
  exact ⟨h.1.1, h.2.1⟩

lemma apply_stdp_error_iff (pre post : List ℝ) (w : ℝ) (inh : Bool)
    (Ap Am tp tm : ℝ) (Api Ami tpi tmi : Option ℝ) (eta gamma lo hi tr : ℝ) :
    (∃ e, apply_stdp pre post w inh Ap Am tp tm Api Ami tpi tmi eta gamma lo
        hi tr = .error e)
      ↔ stdp_validate w inh tp tm tpi tmi gamma lo hi ≠ none := by
  unfold apply_stdp
  cases h : stdp_validate w inh tp tm tpi tmi gamma lo hi <;> simp [h]

lemma stdp_validate_ne_none_iff (w : ℝ) (inh : Bool) (tp tm : ℝ)
    (tpi tmi : Option ℝ) (gamma lo hi : ℝ) :
    stdp_validate w inh tp tm tpi tmi gamma lo hi ≠ none
      ↔ ((inh = true ∧ 0 < w) ∨ (inh = false ∧ w < 0) ∨ tp ≤ 0 ∨ tm ≤ 0
          ∨ tpi.getD tp ≤ 0 ∨ tmi.getD tm ≤ 0 ∨ gamma < 0 ∨ 1 < gamma
          ∨ hi < lo) := by
  unfold stdp_validate
  split_ifs with h1 h2 h3 h4 h5 h6 h7 h8 <;> simp_all <;> tauto

/-- C5: apply_stdp raises exactly when one of the validation conditions
fails - a spike sequence is not a numeric collection, the weight sign is
inconsistent with the polarity flag, a time constant is not positive,
gamma lies outside the unit interval, or the weight bounds are not an
ordered pair with min at most max - and for inputs satisfying all the
conditions it returns a result.  The validation block itself is modelled
from the spec, the head of the archived source being missing. -/
theorem C5_validation (pre post : SpikeArg) (w : ℝ) (inh : Bool)
    (Ap Am tp tm : ℝ) (Api Ami tpi tmi : Option ℝ) (eta gamma : ℝ)
    (bounds : BoundsArg) (tr : ℝ) :
    (∃ e, apply_stdp_dyn pre post w inh Ap Am tp tm Api Ami tpi tmi eta gamma
        bounds tr = .error e)
      ↔ (pre = .notNumeric ∨ post = .notNumeric ∨ bounds = .notPair
          ∨ (inh = true ∧ 0 < w) ∨ (inh = false ∧ w < 0)
          ∨ tp ≤ 0 ∨ tm ≤ 0 ∨ tpi.getD tp ≤ 0 ∨ tmi.getD tm ≤ 0
          ∨ gamma < 0 ∨ 1 < gamma
          ∨ (∃ lo hi, bounds = .pair lo hi ∧ hi < lo)) := by
  cases pre with
  | notNumeric => simp [apply_stdp_dyn]
  | numList ps =>
    cases post with
    | notNumeric => simp [apply_stdp_dyn]
    | numList qs =>
      cases bounds with
      | notPair => simp [apply_stdp_dyn]
      | pair lo hi =>
        have hb : (∃ lo2 hi2, (lo = lo2 ∧ hi = hi2) ∧ hi2 < lo2) ↔ hi < lo := by
          constructor
          · rintro ⟨l2, h2, ⟨rfl, rfl⟩, hh⟩
            exact hh
          · intro hh
            exact ⟨lo, hi, ⟨rfl, rfl⟩, hh⟩
        rw [apply_stdp_dyn, apply_stdp_error_iff, stdp_validate_ne_none_iff]
        simp [hb]

theorem C5_witness :
    ∃ e, apply_stdp_dyn .notNumeric (.numList []) 0 false 1 1 1 1 none none
        none none 1 (1 / 2) (.pair 0 1) 0 = .error e :=
  (C5_validation .notNumeric (.numList []) 0 false 1 1 1 1 none none none
      none 1 (1 / 2) (.pair 0 1) 0).mpr (Or.inl rfl)

/-- C6, counterexample: two back-to-back invocations of apply_mutation
with identical arguments return different results, because the first
invocation advances the shared random generator state that the second one
reads.  The generator stream used here yields 0 for the first draw and 1
afterwards, so the first call mutates the single weight and the second
call does not. -/
theorem C6_cex :
    (apply_mutation ⟨fun i => if i = 0 then 0 else 1, 0⟩ [0] (1 / 2) 1).1
      ≠ (apply_mutation
          ((apply_mutation ⟨fun i => if i = 0 then 0 else 1, 0⟩ [0] (1 / 2)
            1).2) [0] (1 / 2) 1).1 := by
  have h1 : (apply_mutation ⟨fun i => if i = 0 then 0 else 1, 0⟩ [0] (1 / 2)
      1) = ([1], ⟨fun i => if i = 0 then 0 else 1, 2⟩) := by
    simp only [apply_mutation, apply_mutation_impl, np_rand, np_normal,
      masked_add]
    norm_num [List.range_succ]
  rw [h1]
  have h2 : (apply_mutation ⟨fun i => if i = 0 then 0 else 1, 2⟩ [0] (1 / 2)
      1) = ([0], ⟨fun i => if i = 0 then 0 else 1, 4⟩) := by
    simp only [apply_mutation, apply_mutation_impl, np_rand, np_normal,
      masked_add]
    norm_num [List.range_succ]
  rw [h2]
  simp

/-- C6 (amended): the functions that touch process-global state are not
pure across invocations.  apply_mutation reads the shared numpy
generator state and advances its cursor by 2n for n weights;
generate_fractal_spike_train advances it by int(duration / dt), on its
error path included; in both cases the draw stream itself is untouched,
so replaying the same generator state reproduces the result.
plot_eigenvalue_spectrum extends the global matplotlib pyplot state by a
figure with the two eigenvalue histograms on every call and finishes
with a savefig file write or an interactive display, so the state it
returns is never the state it was given.  Every other function computes
from its arguments alone. -/
theorem C6_rng_state (rng : Rng) (w : List ℝ) (r s : ℝ)
    (D k tf dur dt : ℝ) (plt : List PltCmd) (nr nc : ℕ) (e : ℕ → ℕ → ℝ)
    (bins p : String) :
    ((apply_mutation rng w r s).2.pos = rng.pos + 2 * w.length
      ∧ (apply_mutation rng w r s).2.seq = rng.seq)
    ∧ ((generate_fractal_spike_train rng D k tf dur dt).2.pos
          = rng.pos + ⌊dur / dt⌋₊
      ∧ (generate_fractal_spike_train rng D k tf dur dt).2.seq = rng.seq)
    ∧ (plot_eigenvalue_spectrum plt (.arr nr nc e) bins (some p)
          = .ok (plt ++ [.newFigure, .histRealParts nr nc e bins,
              .histImagParts nr nc e bins, .savefig p])
      ∧ plot_eigenvalue_spectrum plt (.arr nr nc e) bins none
          = .ok (plt ++ [.newFigure, .histRealParts nr nc e bins,
              .histImagParts nr nc e bins, .display])
      ∧ plt ++ [PltCmd.newFigure, .histRealParts nr nc e bins,
          .histImagParts nr nc e bins, .savefig p] ≠ plt) := by
  have hfr : (generate_fractal_spike_train rng D k tf dur dt).2
      = ⟨rng.seq, rng.pos + ⌊dur / dt⌋₊⟩ := by
    simp only [generate_fractal_spike_train, np_rand]
    split <;> rfl
  refine ⟨⟨?_, ?_⟩, ⟨?_, ?_⟩, ?_, ?_, ?_⟩
  · simp only [apply_mutation, apply_mutation_impl, np_rand, np_normal]
    omega
  · simp [apply_mutation, apply_mutation_impl, np_rand, np_normal]
  · rw [hfr]
  · rw [hfr]
  · simp [plot_eigenvalue_spectrum]
  · simp [plot_eigenvalue_spectrum]
  · intro h
    have hlen := congrArg List.length h
    simp at hlen

/-- C7: no function mutates its argument arrays.  For the two functions
the claim singles out, with every array write of the source threaded
through the state explicitly: apply_mutation copies the weights and
performs its masked in-place addition on the copy, so the weights
argument after the call equals the original and the returned fresh array
has the same length; the finite-difference loop of calculate_jacobian
adds epsilon to a copy of the point at each iteration, so after all
iterations the point argument is unchanged and one column per coordinate
has been collected. -/
theorem C7_no_argument_mutation (rng : Rng) (w : List ℝ) (r s : ℝ)
    (func : List ℝ → List ℝ) (p : List ℝ) (eps : ℝ) :
    ((apply_mutation_impl rng w r s).1 = w
      ∧ (apply_mutation_impl rng w r s).2.1.length = w.length)
    ∧ ((calc_jacobian_state func p eps).1 = p
      ∧ (calc_jacobian_state func p eps).2.length = p.length) := by
  refine ⟨⟨rfl, ?_⟩, calc_jacobian_state_fst func p eps,
    calc_jacobian_state_cols func p eps⟩
  simp only [apply_mutation_impl]
  exact masked_add_length _ _ _

/-- C8, counterexample: alpha = 1.5 lies outside the documented range
0 < alpha < 1, yet caputo_derivative raises nothing and returns a
computed array (on the one-sample series [1] the k = 0 coefficient is
Gamma(-alpha)/(Gamma(-alpha) * Gamma(1)) = 1, so the result is [1]),
where the claim says an out-of-range alpha is rejected with an error and
no result. -/
theorem C8_cex :
    ¬(0 < (3 / 2 : ℝ) ∧ (3 / 2 : ℝ) < 1)
    ∧ caputo_derivative [1] (3 / 2) 1 = [1] := by
  have hne : Real.Gamma (-(3 / 2) : ℝ) ≠ 0 := by
    apply Real.Gamma_ne_zero
    intro m hm
    have h3 : (3 : ℝ) = 2 * (m : ℝ) := by linarith
    have h4 : (3 : ℕ) = 2 * m := by exact_mod_cast h3
    omega
  refine ⟨by norm_num, ?_⟩
  simp only [caputo_derivative, List.length_cons, List.length_nil]
  norm_num [List.range_succ, Real.Gamma_one, Real.one_rpow, div_self hne]

/-- C8 (amended): validation is not uniform across the repository.
compute_persistent_homology does validate eagerly - it errors exactly on
a non-2D input (TypeError) or a negative max_dim (ValueError) and
otherwise returns a result - but caputo_derivative performs no validation
at all: it returns a fully computed array of the same length as its input
for every alpha, in-range or not. -/
theorem C8_validation_nonuniform :
    (∀ (points : PHPoints) (md : ℤ),
        (∃ e, compute_persistent_homology points md = .error e)
          ↔ (points = .notArr2d ∨ md < 0))
    ∧ (∀ (f : List ℝ) (alpha dt : ℝ),
        (caputo_derivative f alpha dt).length = f.length) := by
  constructor
  · intro points md
    cases points with
    | notArr2d => simp [compute_persistent_homology]
    | arr r c e =>
        by_cases hmd : md < 0 <;> simp [compute_persistent_homology, hmd]
  · intro f alpha dt
    simp [caputo_derivative]

theorem C8_witness :
    (∃ e, compute_persistent_homology .notArr2d 1 = .error e)
    ∧ (caputo_derivative [1, 2] (1 / 2) 1).length = 2 :=
  ⟨(C8_validation_nonuniform.1 .notArr2d 1).mpr (Or.inl rfl),
   by rw [C8_validation_nonuniform.2 [1, 2] (1 / 2) 1]; rfl⟩

lemma linear_system_solver_square (n : ℕ) (A : Matrix (Fin n) (Fin n) ℝ)
    (b : Fin n → ℝ) :
    linear_system_solver n n n A b =
      if A.det = 0 then .error .singular else .ok (A⁻¹.mulVec b) := by
  have hA : ∀ h : n = n, A.submatrix (Fin.cast h.symm) id = A := by
    intro h
    ext i j
    rfl
  have hb : ∀ h : n = n, (fun i => b (Fin.cast h.symm i)) = b := by
    intro h
    funext i
    rfl
  simp only [linear_system_solver]
  rw [dif_pos trivial, dif_pos trivial, hA, hb]
  all_goals rfl

/-- C9: the linear system solver returns the exact solution of A x = b
for a square matrix with non-zero determinant, and errors on a non-square
matrix or a singular one.  The implementation is modelled from the spec
and the tests, the source file being absent from src. -/
theorem C9_linear_solver :
    (∀ (n : ℕ) (A : Matrix (Fin n) (Fin n) ℝ) (b : Fin n → ℝ),
        A.det ≠ 0 →
          linear_system_solver n n n A b = .ok (A⁻¹.mulVec b)
          ∧ A.mulVec (A⁻¹.mulVec b) = b)
    ∧ (∀ (m n k : ℕ) (A : Matrix (Fin m) (Fin n) ℝ) (b : Fin k → ℝ),
        m ≠ n → linear_system_solver m n k A b = .error .nonSquare)
    ∧ (∀ (n : ℕ) (A : Matrix (Fin n) (Fin n) ℝ) (b : Fin n → ℝ),
        A.det = 0 → linear_system_solver n n n A b = .error .singular) := by
  refine ⟨fun n A b hdet => ⟨?_, ?_⟩, fun m n k A b hmn => ?_,
    fun n A b hdet => ?_⟩
  · rw [linear_system_solver_square, if_neg hdet]
  · rw [Matrix.mulVec_mulVec,
      Matrix.mul_nonsing_inv A (isUnit_iff_ne_zero.mpr hdet),
      Matrix.one_mulVec]
  · simp only [linear_system_solver]
    rw [dif_neg hmn]
  · rw [linear_system_solver_square, if_pos hdet]

theorem C9_witness :
    (Matrix.of fun (_ _ : Fin 1) => (2 : ℝ)).det ≠ 0
    ∧ linear_system_solver 1 1 1 (Matrix.of fun (_ _ : Fin 1) => (2 : ℝ))
        (fun _ => (4 : ℝ))
        = .ok ((Matrix.of fun (_ _ : Fin 1) => (2 : ℝ))⁻¹.mulVec
            (fun _ => (4 : ℝ)))
    ∧ (Matrix.of fun (_ _ : Fin 1) => (2 : ℝ)).mulVec
        ((Matrix.of fun (_ _ : Fin 1) => (2 : ℝ))⁻¹.mulVec (fun _ => (4 : ℝ)))
        = (fun _ => (4 : ℝ)) := by
  have hdet : (Matrix.of fun (_ _ : Fin 1) => (2 : ℝ)).det ≠ 0 := by
    rw [Matrix.det_fin_one]
    norm_num
  have h := C9_linear_solver.1 1 (Matrix.of fun (_ _ : Fin 1) => (2 : ℝ))
    (fun _ => (4 : ℝ)) hdet
  exact ⟨hdet, h.1, h.2⟩

/-- C10: a 2D array whose row count equals its column count is passed to
ripser with distance_matrix set, that is, it is interpreted as a
precomputed distance matrix regardless of what the caller intended, and
only a non-square array is treated as a point cloud. -/
theorem C10_square_as_distance_matrix :
    (∀ (n : ℕ) (e : ℕ → ℕ → ℝ) (md : ℤ), 0 ≤ md →
        compute_persistent_homology (.arr n n e) md
          = .ok ⟨n, n, e, md, true⟩)
    ∧ (∀ (r c : ℕ) (e : ℕ → ℕ → ℝ) (md : ℤ), r ≠ c → 0 ≤ md →
        compute_persistent_homology (.arr r c e) md
          = .ok ⟨r, c, e, md, false⟩) := by
  constructor
  · intro n e md hmd
    simp [compute_persistent_homology, not_lt.mpr hmd]
  · intro r c e md hrc hmd
    simp [compute_persistent_homology, not_lt.mpr hmd, hrc]

theorem C10_witness :
    compute_persistent_homology (.arr 2 2 fun _ _ => 0) 1
        = .ok ⟨2, 2, (fun _ _ => 0), 1, true⟩
    ∧ compute_persistent_homology (.arr 2 3 fun _ _ => 0) 1
        = .ok ⟨2, 3, (fun _ _ => 0), 1, false⟩ :=
  ⟨C10_square_as_distance_matrix.1 2 (fun _ _ => 0) 1 (by norm_num),
   C10_square_as_distance_matrix.2 2 3 (fun _ _ => 0) 1 (by norm_num)
     (by norm_num)⟩

end AdvancedMath
